import Mathlib

/-!
Shallow embedding of the object-detection core of the repository
(`blue_detector.py`, `distance_utils.py`, and the consumption of the
detection result in `test.py`), together with theorems settling the
behavioural claims about it.

Conventions of the embedding:
* Python integers are `Nat`/`Int`; Python floats are modelled as `ℚ`
  (the computations at stake are ratios of integers).
* Python's true division `a / b`, which raises `ZeroDivisionError` when
  `b = 0`, is modelled by `pyDiv` returning `Except Unit ℚ`.
* The OpenCV primitives (`cv2.inRange`, morphology, `cv2.findContours`,
  `cv2.contourArea`, `cv2.boundingRect`) are external library calls; a
  contour is embedded by its observations used in the code: its contour
  area and its bounding rectangle.  The binary mask is a predicate on
  (row, column).
-/

set_option maxRecDepth 10000

/-- A binary mask, indexed as `mask row col`; `true` models a pixel value `> 0`
(the foreground of the cleaned mask in `blue_detector.py`). -/
abbrev Mask := ℕ → ℕ → Bool

/-- A contour returned by `cv2.findContours`, embedded by the two observations
the code makes of it: `cv2.contourArea c` (a float, here `ℚ`) and
`cv2.boundingRect c = (x, y, w, h)`. -/
structure Contour where
  area : ℚ
  x : ℕ
  y : ℕ
  w : ℕ
  h : ℕ
  deriving DecidableEq, Repr

/-- Python's `max(contours, key=cv2.contourArea)` (line 46 of
`blue_detector.py`): `none` on the empty list, otherwise the first element of
maximal area (Python's `max` keeps the earlier element on ties, replacing the
current best only on strictly greater key). -/
def maxByArea : List Contour → Option Contour
  | [] => none
  | c :: cs => some (cs.foldl (fun best d => if best.area < d.area then d else best) c)

/-- Python's true division: `a / b` raises `ZeroDivisionError` when `b = 0`,
modelled as `Except.error ()`; otherwise it yields the exact quotient. -/
def pyDiv (a b : ℚ) : Except Unit ℚ :=
  if b = 0 then .error () else .ok (a / b)

/-- Height of one column of the bounding-box submask (lines 79-85 of
`blue_detector.py`): `ys = np.where(column > 0)[0]`, and the height is
`ys.max() - ys.min()` when `ys` is nonempty, else `0`.  The submask is
`mask[y:y+h, x:x+w]`, so row `r` of column `col` is `mask (y+r) (x+col)`. -/
def colHeight (mask : Mask) (x y h col : ℕ) : ℕ :=
  let ys := (List.range h).filter (fun r => mask (y + r) (x + col))
  match ys.max?, ys.min? with
  | some hi, some lo => hi - lo
  | _, _ => 0

/-- The column height profile `col_heights` (lines 78-87): one entry per
column `col ∈ [0, w)`, converted to float (`ℚ`). -/
def colHeights (mask : Mask) (x y w h : ℕ) : List ℚ :=
  (List.range w).map (fun col => (colHeight mask x y h col : ℚ))

/-- The left region of the profile (lines 90-95): the first `w // 4` entries
when `w ≥ 4`, otherwise the whole profile. -/
def leftRegion (w : ℕ) (hs : List ℚ) : List ℚ :=
  if 4 ≤ w then hs.take (w / 4) else hs

/-- The right region of the profile (lines 90-95): the entries from index
`3 * w // 4` on when `w ≥ 4`, otherwise the whole profile. -/
def rightRegion (w : ℕ) (hs : List ℚ) : List ℚ :=
  if 4 ≤ w then hs.drop (3 * w / 4) else hs

/-- NumPy boolean-mask filtering `region[region > 0]` (lines 97-98). -/
def nonzeros (l : List ℚ) : List ℚ :=
  l.filter (fun v => 0 < v)

/-- NumPy `arr.mean()`: sum divided by length (on a nonempty array; the code
only calls it after checking nonemptiness). -/
def listMean (l : List ℚ) : ℚ :=
  l.sum / l.length

/-- The tilt ("angle-like") estimate of lines 89-111 of `blue_detector.py`:
split the profile into the left/right regions, drop zero-height columns,
return 0 if either side has none, otherwise the height difference normalised
by the mean of the two side means (the `avg_h > 0` guard of line 108
included). -/
def angleRel (w : ℕ) (hs : List ℚ) : ℚ :=
  let leftNZ := nonzeros (leftRegion w hs)
  let rightNZ := nonzeros (rightRegion w hs)
  if leftNZ.length = 0 ∨ rightNZ.length = 0 then 0
  else
    let hLeft := listMean leftNZ
    let hRight := listMean rightNZ
    let avgH := (hLeft + hRight) / 2
    if 0 < avgH then (hLeft - hRight) / avgH else 0

/-- The tuple `(x, y, w, h, cx, cy, ex_rel, ey_rel, angle_rel)` returned on
line 154 of `blue_detector.py`. -/
structure Info where
  x : ℕ
  y : ℕ
  w : ℕ
  h : ℕ
  cx : ℕ
  cy : ℕ
  ex_rel : ℚ
  ey_rel : ℚ
  angle_rel : ℚ
  deriving DecidableEq, Repr

/-- The information-computing path of `detect_blue_object` (lines 40-154 of
`blue_detector.py`), starting from the cleaned mask and the contours
`cv2.findContours` extracts from it (the color conversion, thresholding and
morphology that produce the mask are OpenCV library calls on the frame).
Mirrors the source: empty contour list → `none` (line 42); largest contour by
`cv2.contourArea` (line 46); area `< 500` → `none` (line 49); bounding box and
integer centers (lines 52, 59-60); relative centering errors by Python
division (lines 64-72, raising on a zero integer half-dimension); tilt from
the column height profile (lines 76-111). -/
def detect_blue_object (frameW frameH : ℕ) (mask : Mask) (contours : List Contour) :
    Except Unit (Option Info) :=
  match maxByArea contours with
  | none => .ok none
  | some c =>
    if c.area < 500 then .ok none
    else
      let x := c.x
      let y := c.y
      let w := c.w
      let h := c.h
      let cx := x + w / 2
      let cy := y + h / 2
      let frame_cx := frameW / 2
      let frame_cy := frameH / 2
      match pyDiv ((cx : ℚ) - (frame_cx : ℚ)) (frame_cx : ℚ),
            pyDiv ((cy : ℚ) - (frame_cy : ℚ)) (frame_cy : ℚ) with
      | .ok ex_rel, .ok ey_rel =>
          .ok (some ⟨x, y, w, h, cx, cy, ex_rel, ey_rel,
                     angleRel w (colHeights mask x y w h)⟩)
      | _, _ => .error ()

/-- Physical height of the white calibration cube (`H_WHITE_MM = 41.0` in
`distance_utils.py`). -/
def H_WHITE_MM : ℚ := 41

/-- Physical height of the blue object (`H_BLUE_MM = 50.0` in
`distance_utils.py`). -/
def H_BLUE_MM : ℚ := 50

/-- The function `estimate_blue_distance` of `distance_utils.py` (lines
23-36): `None` input or `h_blue_px <= 0` yields `None`; otherwise
`REF_DIST_M * (H_BLUE_MM / H_WHITE_MM) * (REF_H_PX / h_blue_px)`.  The module
globals `REF_DIST_M` and `REF_H_PX` read from the calibration file are passed
as arguments. -/
def estimate_blue_distance (REF_DIST_M REF_H_PX : ℚ) (h_blue_px : Option ℚ) :
    Option ℚ :=
  match h_blue_px with
  | none => none
  | some hpx =>
    if hpx ≤ 0 then none
    else some (REF_DIST_M * (H_BLUE_MM / H_WHITE_MM) * (REF_H_PX / hpx))

/-- The fields of a successfully parsed `distance_calibration.json`, as read
by `distance_utils.py`: each key either absent or bound to a numeric value. -/
structure CalibJson where
  ref_distance_m : Option ℚ
  ref_pixel_height : Option ℚ
  deriving DecidableEq, Repr

/-- The state of the calibration file on disk when `distance_utils.py` is
imported: the file may be missing (`os.path.exists` is false), present but not
valid JSON (`json.load` raises), or parsed into a record. -/
inductive CalibSource where
  | missing
  | malformed
  | parsed (j : CalibJson)
  deriving DecidableEq, Repr

/-- The exceptions the module-level code of `distance_utils.py` can raise:
`FileNotFoundError` (line 11), a JSON decode error from `json.load` (line 17),
and `KeyError` from the subscripts on lines 19-20. -/
inductive CalibError where
  | fileNotFound
  | jsonDecodeError
  | keyError
  deriving DecidableEq, Repr

/-- The module globals bound on lines 19-20 of `distance_utils.py`. -/
structure Calib where
  REF_DIST_M : ℚ
  REF_H_PX : ℚ
  deriving DecidableEq, Repr

/-- The module-level calibration loading of `distance_utils.py` (lines 10-20):
raise if the file is missing, raise if `json.load` fails, raise if a key is
absent, otherwise bind the two globals.  The values themselves are not
inspected (no positivity check appears in the source). -/
def loadCalibration : CalibSource → Except CalibError Calib
  | .missing => .error .fileNotFound
  | .malformed => .error .jsonDecodeError
  | .parsed j =>
    match j.ref_distance_m with
    | none => .error .keyError
    | some d =>
      match j.ref_pixel_height with
      | none => .error .keyError
      | some hpx => .ok ⟨d, hpx⟩

/-- The Python tuple returned by `detect_blue_object` (line 154 of
`blue_detector.py`), flattened to a list of numbers: six ints and three
floats. -/
def infoTuple (i : Info) : List ℚ :=
  [(i.x : ℚ), (i.y : ℚ), (i.w : ℚ), (i.h : ℚ), (i.cx : ℚ), (i.cy : ℚ),
   i.ex_rel, i.ey_rel, i.angle_rel]

/-- The unpacking on line 179 of `test.py`:
`x, y, w, h, cx, cy, ex_rel, ey_rel, angle_rel, distance_m = info`.
Python raises `ValueError` unless the unpacked tuple has exactly 10
elements. -/
def testMainUnpack (t : List ℚ) :
    Except Unit (ℚ × ℚ × ℚ × ℚ × ℚ × ℚ × ℚ × ℚ × ℚ × ℚ) :=
  match t with
  | [a, b, c, d, e, f, g, h, i, j] => .ok (a, b, c, d, e, f, g, h, i, j)
  | _ => .error ()

/-- A pixel buffer: one `numpy` image, addressed as `img row col`. -/
abbrev Image := ℕ → ℕ → ℕ

/-- Default image used by out-of-range buffer lookups (never relevant under
the theorems' hypotheses). -/
def emptyImage : Image := fun _ _ => 0

/-- The store of live `numpy` buffers; a buffer is named by its index. -/
abbrev Heap := List Image

/-- Models `annotated = bgr_img.copy()` (line 55 of `blue_detector.py`): a new
buffer holding the same pixels is appended to the store, and its name is
returned. -/
def allocCopy (heap : Heap) (src : ℕ) : Heap × ℕ :=
  (heap ++ [heap.getD src emptyImage], heap.length)

/-- Models an in-place `cv2` drawing call on the buffer named `tgt`: the
buffer is replaced by `op` applied to it.  The pixel-level effect `op` of each
drawing primitive is an OpenCV library detail and is kept abstract. -/
def drawOn (heap : Heap) (tgt : ℕ) (op : Image → Image) : Heap :=
  heap.set tgt (op (heap.getD tgt emptyImage))

/-- The pixel-level effects of the six `cv2` drawing primitives invoked by
`detect_blue_object`: `cv2.rectangle` (line 56), `cv2.circle` (line 61), the
two `cv2.line` calls (lines 119-120), `cv2.putText` (line 124) and
`cv2.arrowedLine` (line 145), each kept abstract. -/
structure DrawOps where
  rectOp : Image → Image
  circleOp : Image → Image
  lineLeftOp : Image → Image
  lineRightOp : Image → Image
  textOp : Image → Image
  arrowOp : Image → Image

/-- The arrow length of line 137: `int(w * 0.2 * abs(angle_rel))`, i.e. the
truncation of a nonnegative float to an integer. -/
def arrowLength (w : ℕ) (angle_rel : ℚ) : ℕ :=
  (((w : ℚ) * (2 / 10) * |angle_rel|).floor).toNat

/-- The drawing sequence of `detect_blue_object` on the detection path (lines
55-152 of `blue_detector.py`): copy the frame (line 55), draw the rectangle
(56) and the center circle (61) on the copy, draw the two magenta guide lines
only when `w >= 4` (116-120), draw the text overlay (124-133), and draw the
arrow only when `arrow_length > 0` (138-152).  Every drawing call targets the
copy.  Returns the final store and the name of the returned annotated
buffer. -/
def annotateSteps (ops : DrawOps) (w : ℕ) (angle_rel : ℚ) (heap : Heap)
    (frameId : ℕ) : Heap × ℕ :=
  let alloc := allocCopy heap frameId
  let annId := alloc.2
  let h1 := alloc.1
  let h2 := drawOn h1 annId ops.rectOp
  let h3 := drawOn h2 annId ops.circleOp
  let h4 := if 4 ≤ w then drawOn (drawOn h3 annId ops.lineLeftOp) annId ops.lineRightOp
            else h3
  let h5 := drawOn h4 annId ops.textOp
  let h6 := if 0 < arrowLength w angle_rel then drawOn h5 annId ops.arrowOp else h5
  (h6, annId)

/-- The buffer-effect projection of `detect_blue_object` (lines 40-154 of
`blue_detector.py`), complementary to the info-computing projection
`detect_blue_object` above: on the two no-detection paths (lines 42-43 and
49-50) the input buffer itself is returned with no drawing; on the detection
path the annotation sequence runs on a private copy. -/
def detect_blue_frames (ops : DrawOps) (mask : Mask) (contours : List Contour)
    (heap : Heap) (frameId : ℕ) : Heap × ℕ :=
  match maxByArea contours with
  | none => (heap, frameId)
  | some c =>
    if c.area < 500 then (heap, frameId)
    else annotateSteps ops c.w (angleRel c.w (colHeights mask c.x c.y c.w c.h))
           heap frameId

/-- Axis-aligned filled rectangle mask: foreground on rows `[r0, r1)` and
columns `[c0, c1)`; the shape of the synthetic solid-rectangle test frames. -/
def rectMask (r0 r1 c0 c1 : ℕ) : Mask :=
  fun r c => decide (r0 ≤ r ∧ r < r1 ∧ c0 ≤ c ∧ c < c1)

/-- Mask holding two solid rectangles: a wide 100×20 blob at the top-left
(bounding-box aspect ratio 5) and a smaller 30×30 blob below it. -/
def twoBlobMask : Mask := fun r c =>
  rectMask 0 20 0 100 r c || rectMask 40 70 10 40 r c

/-! ### Supporting lemmas -/

theorem foldlMax_mem (l : List Contour) (a : Contour) :
    l.foldl (fun best d => if best.area < d.area then d else best) a ∈ a :: l := by
  induction l generalizing a with
  | nil => simp
  | cons d l ih =>
    rw [List.foldl_cons]
    by_cases hc : a.area < d.area
    · rw [if_pos hc]
      rcases List.mem_cons.mp (ih d) with h | h
      · rw [h]; exact List.mem_cons_of_mem a (List.mem_cons_self d l)
      · exact List.mem_cons_of_mem a (List.mem_cons_of_mem d h)
    · rw [if_neg hc]
      rcases List.mem_cons.mp (ih a) with h | h
      · rw [h]; exact List.mem_cons_self a (d :: l)
      · exact List.mem_cons_of_mem a (List.mem_cons_of_mem d h)

theorem foldlMax_le (l : List Contour) (a : Contour) :
    a.area ≤ (l.foldl (fun best d => if best.area < d.area then d else best) a).area ∧
    ∀ d ∈ l, d.area ≤ (l.foldl (fun best d => if best.area < d.area then d else best) a).area := by
  induction l generalizing a with
  | nil => exact ⟨le_refl _, by simp⟩
  | cons d l ih =>
    rw [List.foldl_cons]
    obtain ⟨h1, h2⟩ := ih (if a.area < d.area then d else a)
    have ha : a.area ≤ (if a.area < d.area then d else a).area := by
      by_cases hc : a.area < d.area
      · rw [if_pos hc]; exact le_of_lt hc
      · rw [if_neg hc]
    have hd : d.area ≤ (if a.area < d.area then d else a).area := by
      by_cases hc : a.area < d.area
      · rw [if_pos hc]
      · rw [if_neg hc]; exact le_of_not_lt hc
    refine ⟨le_trans ha h1, ?_⟩
    intro e he
    rcases List.mem_cons.mp he with h | h
    · rw [h]; exact le_trans hd h1
    · exact h2 e h

theorem maxByArea_mem {l : List Contour} {c : Contour} (h : maxByArea l = some c) :
    c ∈ l := by
  cases l with
  | nil => exact absurd h (by simp [maxByArea])
  | cons a l =>
    have hmem := foldlMax_mem l a
    rw [maxByArea] at h
    rw [Option.some_inj.mp h] at hmem
    exact hmem

theorem maxByArea_le {l : List Contour} {c : Contour} (h : maxByArea l = some c) :
    ∀ d ∈ l, d.area ≤ c.area := by
  cases l with
  | nil => exact absurd h (by simp [maxByArea])
  | cons a l =>
    obtain ⟨h1, h2⟩ := foldlMax_le l a
    rw [maxByArea] at h
    rw [← Option.some_inj.mp h]
    intro d hd
    rcases List.mem_cons.mp hd with h3 | h3
    · rw [h3]; exact h1
    · exact h2 d h3

theorem maxByArea_eq_none {l : List Contour} (h : maxByArea l = none) : l = [] := by
  cases l with
  | nil => rfl
  | cons a l => exact absurd h (by simp [maxByArea])

theorem maxByArea_of_greatest {l : List Contour} {c : Contour} (hmem : c ∈ l)
    (hdom : ∀ d ∈ l, d ≠ c → d.area < c.area) : maxByArea l = some c := by
  obtain ⟨m, hm⟩ : ∃ m, maxByArea l = some m := by
    cases l with
    | nil => exact absurd hmem (by simp)
    | cons a l => exact ⟨_, rfl⟩
  by_cases hmc : m = c
  · rw [hm, hmc]
  · exact absurd (lt_of_le_of_lt (maxByArea_le hm c hmem) (hdom m (maxByArea_mem hm) hmc))
      (lt_irrefl _)

theorem pyDiv_ok {a b v : ℚ} (h : pyDiv a b = .ok v) : b ≠ 0 ∧ v = a / b := by
  by_cases hb : b = 0
  · rw [pyDiv, if_pos hb] at h; exact absurd h (by simp)
  · rw [pyDiv, if_neg hb] at h
    exact ⟨hb, (Except.ok.inj h).symm⟩

theorem detect_none_of_no_contours (frameW frameH : ℕ) (mask : Mask)
    {contours : List Contour} (hm : maxByArea contours = none) :
    detect_blue_object frameW frameH mask contours = .ok none := by
  rw [detect_blue_object, hm]

theorem detect_none_of_small (frameW frameH : ℕ) (mask : Mask)
    {contours : List Contour} {c : Contour} (hm : maxByArea contours = some c)
    (h : c.area < 500) :
    detect_blue_object frameW frameH mask contours = .ok none := by
  rw [detect_blue_object, hm]
  exact if_pos h

theorem detect_eq_of_max (frameW frameH : ℕ) (mask : Mask) (contours : List Contour)
    (c : Contour) (hmax : maxByArea contours = some c) (harea : ¬ c.area < 500)
    (hW : frameW / 2 ≠ 0) (hH : frameH / 2 ≠ 0) :
    detect_blue_object frameW frameH mask contours =
      .ok (some
        { x := c.x, y := c.y, w := c.w, h := c.h,
          cx := c.x + c.w / 2, cy := c.y + c.h / 2,
          ex_rel := (((c.x + c.w / 2 : ℕ) : ℚ) - ((frameW / 2 : ℕ) : ℚ)) /
            ((frameW / 2 : ℕ) : ℚ),
          ey_rel := (((c.y + c.h / 2 : ℕ) : ℚ) - ((frameH / 2 : ℕ) : ℚ)) /
            ((frameH / 2 : ℕ) : ℚ),
          angle_rel := angleRel c.w (colHeights mask c.x c.y c.w c.h) }) := by
  have hWq : ((frameW / 2 : ℕ) : ℚ) ≠ 0 := Nat.cast_ne_zero.mpr hW
  have hHq : ((frameH / 2 : ℕ) : ℚ) ≠ 0 := Nat.cast_ne_zero.mpr hH
  rw [detect_blue_object, hmax]
  simp only [pyDiv, if_neg hWq, if_neg hHq, if_neg harea]

theorem detect_error_of_degenerate (frameW frameH : ℕ) (mask : Mask)
    (contours : List Contour) (c : Contour) (hmax : maxByArea contours = some c)
    (harea : ¬ c.area < 500) (hdeg : frameW / 2 = 0 ∨ frameH / 2 = 0) :
    detect_blue_object frameW frameH mask contours = .error () := by
  rw [detect_blue_object, hmax]
  rcases hdeg with h0 | h0
  · have hWq : ((frameW / 2 : ℕ) : ℚ) = 0 := by rw [h0]; norm_num
    simp only [pyDiv, if_neg harea, if_pos hWq]
  · have hHq : ((frameH / 2 : ℕ) : ℚ) = 0 := by rw [h0]; norm_num
    by_cases hW0 : ((frameW / 2 : ℕ) : ℚ) = 0
    · simp only [pyDiv, if_neg harea, if_pos hW0]
    · simp only [pyDiv, if_neg harea, if_neg hW0, if_pos hHq]

theorem detect_some_inv {frameW frameH : ℕ} {mask : Mask} {contours : List Contour}
    {i : Info} (h : detect_blue_object frameW frameH mask contours = .ok (some i)) :
    ∃ c, maxByArea contours = some c ∧ ¬ c.area < 500 ∧
      frameW / 2 ≠ 0 ∧ frameH / 2 ≠ 0 ∧
      i = { x := c.x, y := c.y, w := c.w, h := c.h,
            cx := c.x + c.w / 2, cy := c.y + c.h / 2,
            ex_rel := (((c.x + c.w / 2 : ℕ) : ℚ) - ((frameW / 2 : ℕ) : ℚ)) /
              ((frameW / 2 : ℕ) : ℚ),
            ey_rel := (((c.y + c.h / 2 : ℕ) : ℚ) - ((frameH / 2 : ℕ) : ℚ)) /
              ((frameH / 2 : ℕ) : ℚ),
            angle_rel := angleRel c.w (colHeights mask c.x c.y c.w c.h) } := by
  cases hm : maxByArea contours with
  | none =>
    have heq := detect_none_of_no_contours frameW frameH mask hm
    exact absurd (heq.symm.trans h) (by simp)
  | some c =>
    by_cases harea : c.area < 500
    · have heq := detect_none_of_small frameW frameH mask hm harea
      exact absurd (heq.symm.trans h) (by simp)
    · by_cases hW0 : frameW / 2 = 0
      · have heq := detect_error_of_degenerate frameW frameH mask contours c hm harea
          (Or.inl hW0)
        exact absurd (heq.symm.trans h) (by simp)
      · by_cases hH0 : frameH / 2 = 0
        · have heq := detect_error_of_degenerate frameW frameH mask contours c hm harea
            (Or.inr hH0)
          exact absurd (heq.symm.trans h) (by simp)
        · have heq := detect_eq_of_max frameW frameH mask contours c hm harea hW0 hH0
          refine ⟨c, rfl, harea, hW0, hH0, ?_⟩
          have := heq.symm.trans h
          exact (Option.some_inj.mp (Except.ok.inj this)).symm

theorem nonzeros_pos {l : List ℚ} {v : ℚ} (h : v ∈ nonzeros l) : 0 < v := by
  rw [nonzeros] at h
  exact of_decide_eq_true (List.mem_filter.mp h).2

theorem listMean_pos {l : List ℚ} (hne : l ≠ []) (hpos : ∀ v ∈ l, 0 < v) :
    0 < listMean l := by
  have hsum := List.sum_pos l hpos hne
  have hlen : 0 < (l.length : ℚ) := by
    exact_mod_cast List.length_pos.mpr hne
  exact div_pos hsum hlen

theorem listMean_const {l : List ℚ} {a : ℚ} (hne : l ≠ []) (hall : ∀ v ∈ l, v = a) :
    listMean l = a := by
  have hlen : (l.length : ℚ) ≠ 0 := by
    exact_mod_cast (List.length_pos.mpr hne).ne'
  rw [listMean, List.sum_eq_card_nsmul l a hall, nsmul_eq_mul,
    mul_div_cancel_left₀ a hlen]

theorem listMean_reverse (l : List ℚ) : listMean l.reverse = listMean l := by
  rw [listMean, listMean, List.sum_reverse, List.length_reverse]

theorem angleRel_of_empty {w : ℕ} {hs : List ℚ}
    (h : nonzeros (leftRegion w hs) = [] ∨ nonzeros (rightRegion w hs) = []) :
    angleRel w hs = 0 := by
  rw [angleRel]
  rcases h with h | h <;> simp [h]

theorem angleRel_formula {w : ℕ} {hs : List ℚ}
    (hL : nonzeros (leftRegion w hs) ≠ []) (hR : nonzeros (rightRegion w hs) ≠ []) :
    angleRel w hs =
      (listMean (nonzeros (leftRegion w hs)) - listMean (nonzeros (rightRegion w hs))) /
        ((listMean (nonzeros (leftRegion w hs)) +
          listMean (nonzeros (rightRegion w hs))) / 2) := by
  have hLpos := listMean_pos hL (fun v hv => nonzeros_pos hv)
  have hRpos := listMean_pos hR (fun v hv => nonzeros_pos hv)
  rw [angleRel]
  have hcond : ¬ ((nonzeros (leftRegion w hs)).length = 0 ∨
      (nonzeros (rightRegion w hs)).length = 0) := by
    push_neg
    exact ⟨fun h0 => hL (List.eq_nil_of_length_eq_zero h0),
           fun h0 => hR (List.eq_nil_of_length_eq_zero h0)⟩
  rw [if_neg hcond, if_pos (by linarith)]

theorem angleRel_eq_zero_of_mean_eq {w : ℕ} {hs : List ℚ}
    (hmean : listMean (nonzeros (leftRegion w hs)) =
      listMean (nonzeros (rightRegion w hs))) :
    angleRel w hs = 0 := by
  by_cases hL : nonzeros (leftRegion w hs) = []
  · exact angleRel_of_empty (Or.inl hL)
  · by_cases hR : nonzeros (rightRegion w hs) = []
    · exact angleRel_of_empty (Or.inr hR)
    · rw [angleRel_formula hL hR, hmean, sub_self, zero_div]

theorem angleRel_small {w : ℕ} (hs : List ℚ) (hw : w < 4) : angleRel w hs = 0 := by
  have hl : leftRegion w hs = hs := if_neg (by omega)
  have hr : rightRegion w hs = hs := if_neg (by omega)
  exact angleRel_eq_zero_of_mean_eq (by rw [hl, hr])

theorem rightRegion_of_palindrome {w : ℕ} {hs : List ℚ} (hlen : hs.length = w)
    (hdvd : 4 ∣ w) (hrev : hs.reverse = hs) (hw : 4 ≤ w) :
    rightRegion w hs = (leftRegion w hs).reverse := by
  rw [leftRegion, rightRegion, if_pos hw, if_pos hw, List.reverse_take, hrev, hlen]
  congr 1
  omega

theorem drawOn_getD_ne (heap : Heap) (tgt n : ℕ) (op : Image → Image) (hne : tgt ≠ n) :
    (drawOn heap tgt op).getD n emptyImage = heap.getD n emptyImage := by
  rw [drawOn, List.getD_eq_getElem?_getD, List.getElem?_set_ne hne,
    ← List.getD_eq_getElem?_getD]

theorem annotateSteps_preserves (ops : DrawOps) (w : ℕ) (a : ℚ) (heap : Heap)
    (frameId : ℕ) (hlt : frameId < heap.length) :
    ((annotateSteps ops w a heap frameId).1).getD frameId emptyImage =
      heap.getD frameId emptyImage := by
  have hne : heap.length ≠ frameId := Nat.ne_of_gt hlt
  simp only [annotateSteps, allocCopy]
  by_cases h4 : 4 ≤ w <;> by_cases ha : 0 < arrowLength w a <;>
    simp only [h4, ha, if_true, if_false] <;>
    simp only [drawOn_getD_ne _ _ _ _ hne] <;>
    exact List.getD_append _ _ _ _ hlt

theorem frames_id_of_no_contours {ops : DrawOps} {mask : Mask} {contours : List Contour}
    {heap : Heap} {frameId : ℕ} (hm : maxByArea contours = none) :
    detect_blue_frames ops mask contours heap frameId = (heap, frameId) := by
  rw [detect_blue_frames, hm]

theorem frames_id_of_small {ops : DrawOps} {mask : Mask} {contours : List Contour}
    {heap : Heap} {frameId : ℕ} {c : Contour} (hm : maxByArea contours = some c)
    (h : c.area < 500) :
    detect_blue_frames ops mask contours heap frameId = (heap, frameId) := by
  rw [detect_blue_frames, hm]
  exact if_pos h

theorem frames_annotate_of_big {ops : DrawOps} {mask : Mask} {contours : List Contour}
    {heap : Heap} {frameId : ℕ} {c : Contour} (hm : maxByArea contours = some c)
    (h : ¬ c.area < 500) :
    detect_blue_frames ops mask contours heap frameId =
      annotateSteps ops c.w (angleRel c.w (colHeights mask c.x c.y c.w c.h))
        heap frameId := by
  rw [detect_blue_frames, hm]
  exact if_neg h


theorem range_max? (h : ℕ) (h1 : 1 ≤ h) : (List.range h).max? = some (h - 1) := by
  rw [List.max?_eq_some_iff (fun a => le_rfl) (fun a b => max_choice a b)
    (fun a b c => max_le_iff)]
  constructor
  · exact List.mem_range.mpr (by omega)
  · intro b hb
    have := List.mem_range.mp hb
    omega

theorem range_min? (h : ℕ) (h1 : 1 ≤ h) : (List.range h).min? = some 0 := by
  rw [List.min?_eq_some_iff (fun a => le_rfl) (fun a b => min_choice a b)
    (fun a b c => le_min_iff)]
  constructor
  · exact List.mem_range.mpr (by omega)
  · intro b hb
    omega

theorem mem_of_mem_nonzeros {l : List ℚ} {v : ℚ} (h : v ∈ nonzeros l) : v ∈ l := by
  rw [nonzeros] at h
  exact List.mem_of_mem_filter h

theorem mem_of_mem_leftRegion {w : ℕ} {hs : List ℚ} {v : ℚ}
    (h : v ∈ leftRegion w hs) : v ∈ hs := by
  rw [leftRegion] at h
  by_cases h4 : 4 ≤ w
  · rw [if_pos h4] at h
    exact List.take_subset _ _ h
  · rw [if_neg h4] at h
    exact h

theorem mem_of_mem_rightRegion {w : ℕ} {hs : List ℚ} {v : ℚ}
    (h : v ∈ rightRegion w hs) : v ∈ hs := by
  rw [rightRegion] at h
  by_cases h4 : 4 ≤ w
  · rw [if_pos h4] at h
    exact List.drop_subset _ _ h
  · rw [if_neg h4] at h
    exact h

theorem angleRel_of_constant {w : ℕ} {hs : List ℚ} {q : ℚ}
    (hall : ∀ v ∈ hs, v = q) : angleRel w hs = 0 := by
  by_cases hL : nonzeros (leftRegion w hs) = []
  · exact angleRel_of_empty (Or.inl hL)
  by_cases hR : nonzeros (rightRegion w hs) = []
  · exact angleRel_of_empty (Or.inr hR)
  have hLall : ∀ v ∈ nonzeros (leftRegion w hs), v = q :=
    fun v hv => hall v (mem_of_mem_leftRegion (mem_of_mem_nonzeros hv))
  have hRall : ∀ v ∈ nonzeros (rightRegion w hs), v = q :=
    fun v hv => hall v (mem_of_mem_rightRegion (mem_of_mem_nonzeros hv))
  exact angleRel_eq_zero_of_mean_eq
    (by rw [listMean_const hL hLall, listMean_const hR hRall])

theorem colHeight_of_full (mask : Mask) (x y h col : ℕ) (h1 : 1 ≤ h)
    (hall : ∀ r < h, mask (y + r) (x + col) = true) :
    colHeight mask x y h col = h - 1 := by
  have hfil : (List.range h).filter (fun r => mask (y + r) (x + col)) =
      List.range h :=
    List.filter_eq_self.mpr (fun r hr => hall r (List.mem_range.mp hr))
  simp only [colHeight]
  rw [hfil, range_max? h h1, range_min? h h1]
  rfl

theorem angleRel_full_rect (mask : Mask) (x y w h : ℕ) (h1 : 1 ≤ h)
    (hall : ∀ r < h, ∀ col < w, mask (y + r) (x + col) = true) :
    angleRel w (colHeights mask x y w h) = 0 := by
  apply angleRel_of_constant (q := ((h - 1 : ℕ) : ℚ))
  intro v hv
  rw [colHeights] at hv
  obtain ⟨col, hcol, hveq⟩ := List.mem_map.mp hv
  rw [← hveq, colHeight_of_full mask x y h col h1
    (fun r hr => hall r hr col (List.mem_range.mp hcol))]

/-! ### Claim theorems -/

/-- C1 counterexample: with two qualifying blobs — a wide one of bounding box
100×20 (aspect ratio `w/h = 5`, contour area 1881, the largest) and a smaller
in-range 30×30 one (area 841) — `detect_blue_object` selects the wide blob:
no aspect-ratio filtering exists, so the wide blob is not rejected and the
smaller in-range blob is not selected. -/
theorem claim1_counterexample :
    detect_blue_object 640 480 twoBlobMask
        [⟨1881, 0, 0, 100, 20⟩, ⟨841, 10, 40, 30, 30⟩] =
      .ok (some ⟨0, 0, 100, 20, 50, 10, -27/32, -23/24, 0⟩) ∧
    (100 : ℚ) / 20 = 5 := by
  constructor
  · rw [detect_eq_of_max 640 480 twoBlobMask
      [⟨1881, 0, 0, 100, 20⟩, ⟨841, 10, 40, 30, 30⟩] ⟨1881, 0, 0, 100, 20⟩
      (by norm_num [maxByArea]) (by norm_num) (by norm_num) (by norm_num)]
    have hang := angleRel_full_rect twoBlobMask 0 0 100 20 (by norm_num)
      (fun r hr col hcol => by
        rw [twoBlobMask, rectMask, rectMask]
        simp only [Bool.or_eq_true]
        exact Or.inl (decide_eq_true (by omega)))
    norm_num [Except.ok.injEq, Option.some.injEq, Info.mk.injEq, hang]
  · norm_num

/-- C1 (amended): the blob selector supports only the max-area policy — the
contour with the strictly greatest contour area, when that area is at least
500, is selected whatever its bounding-box aspect ratio; no shape-filtered
selection policy exists in the code. -/
theorem claim1_max_area_ignores_aspect (frameW frameH : ℕ) (mask : Mask)
    (contours : List Contour) (c : Contour) (hmem : c ∈ contours)
    (hdom : ∀ d ∈ contours, d ≠ c → d.area < c.area) (harea : 500 ≤ c.area)
    (hW : 2 ≤ frameW) (hH : 2 ≤ frameH) :
    ∃ i, detect_blue_object frameW frameH mask contours = .ok (some i) ∧
      i.x = c.x ∧ i.y = c.y ∧ i.w = c.w ∧ i.h = c.h := by
  have hmax := maxByArea_of_greatest hmem hdom
  exact ⟨_, detect_eq_of_max frameW frameH mask contours c hmax
    (not_lt.mpr harea) (by omega) (by omega), rfl, rfl, rfl, rfl⟩

/-- Witness for C1: a wide 100×20 contour of area 5000 dominating a 30×30
contour of area 600 is the one selected. -/
theorem claim1_witness :
    ∃ i, detect_blue_object 640 480 (fun _ _ => false)
        [⟨5000, 0, 0, 100, 20⟩, ⟨600, 200, 200, 30, 30⟩] = .ok (some i) ∧
      i.x = 0 ∧ i.y = 0 ∧ i.w = 100 ∧ i.h = 20 :=
  claim1_max_area_ignores_aspect 640 480 (fun _ _ => false)
    [⟨5000, 0, 0, 100, 20⟩, ⟨600, 200, 200, 30, 30⟩] ⟨5000, 0, 0, 100, 20⟩
    (by simp) (by decide) (by norm_num) (by omega) (by omega)

/-- C2 counterexample: on a frame of width 0 (a realizable degenerate input:
its mask has no foreground, hence no contours) the pass returns the absent
result — no `error_x_rel` equal to 0 is produced — and the centering division
of lines 68-71 of `blue_detector.py`, evaluated at the zero integer half-width
the claim is about, raises `ZeroDivisionError` instead of being defined as
0. -/
theorem claim2_counterexample :
    detect_blue_object 0 480 (fun _ _ => false) [] = .ok none ∧
    pyDiv ((320 : ℚ) - ((0 / 2 : ℕ) : ℚ)) ((0 / 2 : ℕ) : ℚ) = .error () ∧
    pyDiv ((320 : ℚ) - ((0 / 2 : ℕ) : ℚ)) ((0 / 2 : ℕ) : ℚ) ≠ .ok 0 := by
  refine ⟨rfl, rfl, ?_⟩
  simp [pyDiv]

/-- C2 (amended): for every frame whose width or height is 0, a contour lying
within the frame bounds is impossible, so the detection pass returns the
absent result before ever reaching the centering division — it does not
crash, but not because of a guard defining the error as 0 (lines 64-72
contain no such guard). -/
theorem claim2_degenerate_frame_absent (frameW frameH : ℕ) (mask : Mask)
    (contours : List Contour)
    (hin : ∀ c ∈ contours, c.x + c.w ≤ frameW ∧ c.y + c.h ≤ frameH ∧
      1 ≤ c.w ∧ 1 ≤ c.h)
    (hdeg : frameW = 0 ∨ frameH = 0) :
    detect_blue_object frameW frameH mask contours = .ok none := by
  have hnil : contours = [] := by
    cases contours with
    | nil => rfl
    | cons c cs =>
      exfalso
      obtain ⟨h1, h2, h3, h4⟩ := hin c (List.mem_cons_self c cs)
      rcases hdeg with h0 | h0 <;> omega
  subst hnil
  rfl

/-- Witness for C2: a width-0 frame yields the absent result. -/
theorem claim2_witness :
    detect_blue_object 0 480 (fun _ _ => true) [] = .ok none :=
  claim2_degenerate_frame_absent 0 480 (fun _ _ => true) [] (by simp) (Or.inl rfl)

/-- C3 (code bug): at a frame where a blue object is detected — a 640×480
frame with a solid blue rectangle at rows 100-149, columns 100-149 — the
detection pass returns the 9-tuple of line 154 of `blue_detector.py`, which
carries no `distance_m`; the 10-variable unpacking of line 179 of `test.py`
therefore raises `ValueError`, so no caller can read `(tilt_rel, distance_m)`
from the result, calibration record or not. -/
theorem claim3_no_distance_in_result :
    detect_blue_object 640 480 (rectMask 100 150 100 150)
        [⟨2401, 100, 100, 50, 50⟩] =
      .ok (some ⟨100, 100, 50, 50, 125, 125, -39/64, -23/48, 0⟩) ∧
    (infoTuple ⟨100, 100, 50, 50, 125, 125, -39/64, -23/48, 0⟩).length = 9 ∧
    testMainUnpack (infoTuple ⟨100, 100, 50, 50, 125, 125, -39/64, -23/48, 0⟩) =
      .error () := by
  refine ⟨?_, rfl, rfl⟩
  rw [detect_eq_of_max 640 480 (rectMask 100 150 100 150)
    [⟨2401, 100, 100, 50, 50⟩] ⟨2401, 100, 100, 50, 50⟩ rfl
    (by norm_num) (by norm_num) (by norm_num)]
  have hang := angleRel_full_rect (rectMask 100 150 100 150) 100 100 50 50
    (by norm_num)
    (fun r hr col hcol => by
      rw [rectMask]
      exact decide_eq_true (by omega))
  norm_num [Except.ok.injEq, Option.some.injEq, Info.mk.injEq, hang]

/-- C4 counterexample: a parsed calibration record with the non-positive field
`ref_distance_m = -1` is accepted by the module-level loading code of
`distance_utils.py` (the globals are bound with no positivity validation),
contradicting the claim that a record with a non-positive field is never
accepted. -/
theorem claim4_counterexample :
    loadCalibration (.parsed ⟨some (-1), some 100⟩) = .ok ⟨-1, 100⟩ := rfl

/-- C4 (amended): loading the calibration record fails at startup when the
file is missing, when it is malformed, or when a required key is absent; but
present field values are not validated, so any numeric pair — non-positive
values included — is accepted as configuration. -/
theorem claim4_load_failure_cases (j : CalibJson) :
    loadCalibration .missing = .error .fileNotFound ∧
    loadCalibration .malformed = .error .jsonDecodeError ∧
    (j.ref_distance_m = none ∨ j.ref_pixel_height = none →
      loadCalibration (.parsed j) = .error .keyError) ∧
    (∀ d hpx : ℚ, j.ref_distance_m = some d → j.ref_pixel_height = some hpx →
      loadCalibration (.parsed j) = .ok ⟨d, hpx⟩) := by
  obtain ⟨jd, jh⟩ := j
  refine ⟨rfl, rfl, fun h => ?_, fun d hpx hd hh => ?_⟩
  · cases jd with
    | none => rfl
    | some d0 =>
      cases jh with
      | none => rfl
      | some h0 => rcases h with h | h <;> exact absurd h (by simp)
  · cases jd with
    | none => exact absurd hd (by simp)
    | some d0 =>
      cases jh with
      | none => exact absurd hh (by simp)
      | some h0 =>
        have hd0 : d0 = d := Option.some_inj.mp hd
        have hh0 : h0 = hpx := Option.some_inj.mp hh
        subst hd0
        subst hh0
        rfl

/-- Witness for C4: a record missing `ref_distance_m` is rejected with
`KeyError`, and a complete record is accepted with its values. -/
theorem claim4_witness :
    loadCalibration (.parsed ⟨none, some 3⟩) = .error CalibError.keyError ∧
    loadCalibration (.parsed ⟨some 2, some 240⟩) = .ok ⟨2, 240⟩ :=
  ⟨(claim4_load_failure_cases ⟨none, some 3⟩).2.2.1 (Or.inl rfl),
   (claim4_load_failure_cases ⟨some 2, some 240⟩).2.2.2 2 240 rfl rfl⟩

/-- C6: whenever a contour is selected on a frame, the result's fields are
exactly the claim's formulas: `cx = x + w//2`, `cy = y + h//2` with floor
division, `error_x_rel = (cx - frame_w//2)/(frame_w//2)` and
`error_y_rel = (cy - frame_h//2)/(frame_h//2)`; the witness instantiates this
at the claim's 640×480 frame with a solid rectangle at (270, 190, 100, 100),
yielding exactly (270, 190, 100, 100, 320, 240, 0, 0, 0). -/
theorem claim6_centering (frameW frameH : ℕ) (mask : Mask)
    (contours : List Contour) (c : Contour) (hmax : maxByArea contours = some c)
    (harea : ¬ c.area < 500) (hW : 2 ≤ frameW) (hH : 2 ≤ frameH) :
    detect_blue_object frameW frameH mask contours =
      .ok (some
        { x := c.x, y := c.y, w := c.w, h := c.h,
          cx := c.x + c.w / 2, cy := c.y + c.h / 2,
          ex_rel := (((c.x + c.w / 2 : ℕ) : ℚ) - ((frameW / 2 : ℕ) : ℚ)) /
            ((frameW / 2 : ℕ) : ℚ),
          ey_rel := (((c.y + c.h / 2 : ℕ) : ℚ) - ((frameH / 2 : ℕ) : ℚ)) /
            ((frameH / 2 : ℕ) : ℚ),
          angle_rel := angleRel c.w (colHeights mask c.x c.y c.w c.h) }) :=
  detect_eq_of_max frameW frameH mask contours c hmax harea (by omega) (by omega)

/-- Witness for C6: the claim's concrete scenario — 640×480 frame, solid blue
rectangle at (270, 190) of size 100×100 — yields exactly
(270, 190, 100, 100, 320, 240, 0.0, 0.0, 0.0). -/
theorem claim6_witness :
    detect_blue_object 640 480 (rectMask 190 290 270 370)
        [⟨9801, 270, 190, 100, 100⟩] =
      .ok (some ⟨270, 190, 100, 100, 320, 240, 0, 0, 0⟩) := by
  rw [claim6_centering 640 480 (rectMask 190 290 270 370)
    [⟨9801, 270, 190, 100, 100⟩] ⟨9801, 270, 190, 100, 100⟩ rfl
    (by norm_num) (by omega) (by omega)]
  have hang := angleRel_full_rect (rectMask 190 290 270 370) 270 190 100 100
    (by norm_num)
    (fun r hr col hcol => by
      rw [rectMask]
      exact decide_eq_true (by omega))
  norm_num [Except.ok.injEq, Option.some.injEq, Info.mk.injEq, hang]

/-- C8: for every measured pixel height `h_px > 0` the distance estimate
equals `reference_distance_m * (H_target_mm / H_ref_mm) *
(reference_pixel_height / h_px)` with `H_target_mm = 50` and `H_ref_mm = 41`,
and for every `h_px ≤ 0` or missing height the distance is absent (`none`)
rather than an error. -/
theorem claim8_distance_formula (REF_DIST_M REF_H_PX hpx : ℚ) :
    H_BLUE_MM = 50 ∧ H_WHITE_MM = 41 ∧
    (0 < hpx →
      estimate_blue_distance REF_DIST_M REF_H_PX (some hpx) =
        some (REF_DIST_M * (H_BLUE_MM / H_WHITE_MM) * (REF_H_PX / hpx))) ∧
    (hpx ≤ 0 → estimate_blue_distance REF_DIST_M REF_H_PX (some hpx) = none) ∧
    estimate_blue_distance REF_DIST_M REF_H_PX none = none := by
  refine ⟨rfl, rfl, fun h => ?_, fun h => ?_, rfl⟩
  · rw [estimate_blue_distance]
    exact if_neg (not_le.mpr h)
  · rw [estimate_blue_distance]
    exact if_pos h

/-- Witness for C8: with reference distance 2 m, reference pixel height 100
and a measured height of 4 px the formula applies; at height 0 the distance is
absent. -/
theorem claim8_witness :
    estimate_blue_distance 2 100 (some 4) =
      some (2 * (H_BLUE_MM / H_WHITE_MM) * (100 / 4)) ∧
    estimate_blue_distance 2 100 (some 0) = none :=
  ⟨(claim8_distance_formula 2 100 4).2.2.1 (by norm_num),
   (claim8_distance_formula 2 100 0).2.2.2.1 (by norm_num)⟩

/-- C10: a detection call leaves the input frame buffer unchanged — every
annotation primitive is drawn on a private copy allocated on line 55 of
`blue_detector.py` — and on the two no-detection paths the input buffer
itself is returned with no drawing at all. -/
theorem claim10_no_frame_mutation (ops : DrawOps) (mask : Mask)
    (contours : List Contour) (heap : Heap) (frameId : ℕ)
    (hlt : frameId < heap.length) :
    ((detect_blue_frames ops mask contours heap frameId).1).getD frameId emptyImage =
      heap.getD frameId emptyImage ∧
    ((maxByArea contours = none ∨ ∃ c, maxByArea contours = some c ∧ c.area < 500) →
      detect_blue_frames ops mask contours heap frameId = (heap, frameId)) := by
  constructor
  · cases hm : maxByArea contours with
    | none => rw [frames_id_of_no_contours hm]
    | some c =>
      by_cases harea : c.area < 500
      · rw [frames_id_of_small hm harea]
      · rw [frames_annotate_of_big hm harea]
        exact annotateSteps_preserves _ _ _ _ _ hlt
  · intro h
    rcases h with h | ⟨c, hc, hsmall⟩
    · exact frames_id_of_no_contours h
    · exact frames_id_of_small hc hsmall

/-- Witness for C10: a one-buffer store with a detected 40×40 contour; after
the annotated copy is produced, buffer 0 still holds the input image. -/
theorem claim10_witness :
    ((detect_blue_frames ⟨id, id, id, id, id, id⟩ (fun _ _ => false)
        [⟨600, 5, 5, 40, 40⟩] [emptyImage] 0).1).getD 0 emptyImage =
      [emptyImage].getD 0 emptyImage ∧
    ((maxByArea [(⟨600, 5, 5, 40, 40⟩ : Contour)] = none ∨
      ∃ c, maxByArea [(⟨600, 5, 5, 40, 40⟩ : Contour)] = some c ∧ c.area < 500) →
      detect_blue_frames ⟨id, id, id, id, id, id⟩ (fun _ _ => false)
        [⟨600, 5, 5, 40, 40⟩] [emptyImage] 0 = ([emptyImage], 0)) :=
  claim10_no_frame_mutation ⟨id, id, id, id, id, id⟩ (fun _ _ => false)
    [⟨600, 5, 5, 40, 40⟩] [emptyImage] 0 (by norm_num)

/-- C5: on any contour list consistent with the frame (bounding boxes inside
the frame with positive sides, contour area at most the inner bounding-box
area, as `cv2.findContours`/`cv2.contourArea` guarantee), the detection pass
never raises, and it produces a result if and only if some contour has area
at least 500 — the minimum of line 49 of `blue_detector.py`; in particular an
empty contour list (all-background frame) yields the absent result. -/
theorem claim5_area_floor (frameW frameH : ℕ) (mask : Mask)
    (contours : List Contour)
    (hin : ∀ c ∈ contours, c.x + c.w ≤ frameW ∧ c.y + c.h ≤ frameH ∧
      1 ≤ c.w ∧ 1 ≤ c.h ∧ c.area ≤ ((c.w : ℚ) - 1) * ((c.h : ℚ) - 1)) :
    (∃ r, detect_blue_object frameW frameH mask contours = .ok r) ∧
    ((∃ i, detect_blue_object frameW frameH mask contours = .ok (some i)) ↔
      ∃ c ∈ contours, 500 ≤ c.area) := by
  cases hm : maxByArea contours with
  | none =>
    have hnil := maxByArea_eq_none hm
    subst hnil
    refine ⟨⟨none, rfl⟩, ?_⟩
    constructor
    · rintro ⟨i, hi⟩
      exact absurd hi (by simp [detect_blue_object, maxByArea])
    · rintro ⟨c, hc, -⟩
      exact absurd hc (by simp)
  | some c =>
    by_cases harea : c.area < 500
    · have heq := detect_none_of_small frameW frameH mask hm harea
      refine ⟨⟨none, heq⟩, ?_⟩
      constructor
      · rintro ⟨i, hi⟩
        exact absurd (heq.symm.trans hi) (by simp)
      · rintro ⟨d, hd, hda⟩
        exact absurd (lt_of_le_of_lt (hda.trans (maxByArea_le hm d hd)) harea)
          (by norm_num)
    · have hmem := maxByArea_mem hm
      obtain ⟨h1, h2, h3, h4, h5⟩ := hin c hmem
      have h500 : (500 : ℚ) ≤ c.area := not_lt.mp harea
      have hw2 : 2 ≤ c.w := by
        by_contra hcon
        have hw1 : c.w = 1 := by omega
        rw [hw1] at h5
        norm_num at h5
        linarith
      have hh2 : 2 ≤ c.h := by
        by_contra hcon
        have hh1 : c.h = 1 := by omega
        rw [hh1] at h5
        norm_num at h5
        linarith
      have hW : frameW / 2 ≠ 0 := by omega
      have hH : frameH / 2 ≠ 0 := by omega
      have heq := detect_eq_of_max frameW frameH mask contours c hm harea hW hH
      exact ⟨⟨_, heq⟩, fun _ => ⟨c, hmem, h500⟩, fun _ => ⟨_, heq⟩⟩

/-- Witness for C5: a single 30×30 contour of area 501 yields a result, and
the same contour with area 499 yields the absent result (both read off the
proved equivalence). -/
theorem claim5_witness :
    ((∃ i, detect_blue_object 640 480 (fun _ _ => false)
        [⟨501, 10, 10, 30, 30⟩] = .ok (some i)) ↔
      ∃ c ∈ [(⟨501, 10, 10, 30, 30⟩ : Contour)], 500 ≤ c.area) ∧
    ((∃ i, detect_blue_object 640 480 (fun _ _ => false)
        [⟨499, 10, 10, 30, 30⟩] = .ok (some i)) ↔
      ∃ c ∈ [(⟨499, 10, 10, 30, 30⟩ : Contour)], 500 ≤ c.area) :=
  ⟨(claim5_area_floor 640 480 (fun _ _ => false) [⟨501, 10, 10, 30, 30⟩]
      (by
        intro c hc
        rw [List.mem_singleton] at hc
        subst hc
        norm_num)).2,
   (claim5_area_floor 640 480 (fun _ _ => false) [⟨499, 10, 10, 30, 30⟩]
      (by
        intro c hc
        rw [List.mem_singleton] at hc
        subst hc
        norm_num)).2⟩

theorem relErr_bounds (cpix half : ℕ) (hhalf : half ≠ 0) (hub : cpix ≤ 2 * half) :
    -1 ≤ ((cpix : ℚ) - (half : ℚ)) / (half : ℚ) ∧
    ((cpix : ℚ) - (half : ℚ)) / (half : ℚ) ≤ 1 ∧
    (cpix = 0 → ((cpix : ℚ) - (half : ℚ)) / (half : ℚ) = -1) := by
  have hb : (0 : ℚ) < (half : ℚ) := by
    exact_mod_cast Nat.pos_of_ne_zero hhalf
  refine ⟨?_, ?_, ?_⟩
  · rw [le_div_iff₀ hb]
    have hc0 : (0 : ℚ) ≤ (cpix : ℚ) := Nat.cast_nonneg cpix
    linarith
  · rw [div_le_one hb]
    have hcu : (cpix : ℚ) ≤ 2 * (half : ℚ) := by exact_mod_cast hub
    linarith
  · intro h0
    subst h0
    push_cast
    rw [zero_sub, neg_div, div_self hb.ne']

/-- C9: whenever a result is produced from contours lying inside a frame (box
within bounds, positive sides), the integer center satisfies
`cx ≤ frame_w - 1` and `cy ≤ frame_h - 1` and both normalized errors lie in
[-1, 1]; moreover a blob whose integer center is the (0, 0) corner attains
`error_x_rel = -1` and `error_y_rel = -1`. -/
theorem claim9_error_bounds (frameW frameH : ℕ) (mask : Mask)
    (contours : List Contour) (i : Info)
    (hin : ∀ c ∈ contours, c.x + c.w ≤ frameW ∧ c.y + c.h ≤ frameH ∧
      1 ≤ c.w ∧ 1 ≤ c.h)
    (hdet : detect_blue_object frameW frameH mask contours = .ok (some i)) :
    i.cx ≤ frameW - 1 ∧ i.cy ≤ frameH - 1 ∧
    -1 ≤ i.ex_rel ∧ i.ex_rel ≤ 1 ∧ -1 ≤ i.ey_rel ∧ i.ey_rel ≤ 1 ∧
    (i.cx = 0 → i.ex_rel = -1) ∧ (i.cy = 0 → i.ey_rel = -1) := by
  obtain ⟨c, hm, harea, hW0, hH0, hi⟩ := detect_some_inv hdet
  obtain ⟨h1, h2, h3, h4⟩ := hin c (maxByArea_mem hm)
  subst hi
  have hcx2 : c.x + c.w / 2 ≤ 2 * (frameW / 2) := by omega
  have hcy2 : c.y + c.h / 2 ≤ 2 * (frameH / 2) := by omega
  obtain ⟨hxl, hxu, hxc⟩ := relErr_bounds (c.x + c.w / 2) (frameW / 2) hW0 hcx2
  obtain ⟨hyl, hyu, hyc⟩ := relErr_bounds (c.y + c.h / 2) (frameH / 2) hH0 hcy2
  exact ⟨show c.x + c.w / 2 ≤ frameW - 1 by omega,
    show c.y + c.h / 2 ≤ frameH - 1 by omega, hxl, hxu, hyl, hyu, hxc, hyc⟩

/-- Witness for C9: a 1×1 blob at the (0,0) corner of a 640×480 frame (its
single mask pixel at the origin) is detected with center (0,0); the bounds
hold and both errors attain -1. -/
theorem claim9_witness :
    (⟨0, 0, 1, 1, 0, 0, -1, -1, 0⟩ : Info).cx ≤ 640 - 1 ∧
    (⟨0, 0, 1, 1, 0, 0, -1, -1, 0⟩ : Info).cy ≤ 480 - 1 ∧
    -1 ≤ (⟨0, 0, 1, 1, 0, 0, -1, -1, 0⟩ : Info).ex_rel ∧
    (⟨0, 0, 1, 1, 0, 0, -1, -1, 0⟩ : Info).ex_rel ≤ 1 ∧
    -1 ≤ (⟨0, 0, 1, 1, 0, 0, -1, -1, 0⟩ : Info).ey_rel ∧
    (⟨0, 0, 1, 1, 0, 0, -1, -1, 0⟩ : Info).ey_rel ≤ 1 ∧
    ((⟨0, 0, 1, 1, 0, 0, -1, -1, 0⟩ : Info).cx = 0 →
      (⟨0, 0, 1, 1, 0, 0, -1, -1, 0⟩ : Info).ex_rel = -1) ∧
    ((⟨0, 0, 1, 1, 0, 0, -1, -1, 0⟩ : Info).cy = 0 →
      (⟨0, 0, 1, 1, 0, 0, -1, -1, 0⟩ : Info).ey_rel = -1) :=
  claim9_error_bounds 640 480 (rectMask 0 1 0 1) [⟨600, 0, 0, 1, 1⟩]
    ⟨0, 0, 1, 1, 0, 0, -1, -1, 0⟩
    (by
      intro c hc
      rw [List.mem_singleton] at hc
      subst hc
      norm_num)
    (by
      rw [detect_eq_of_max 640 480 (rectMask 0 1 0 1) [⟨600, 0, 0, 1, 1⟩]
        ⟨600, 0, 0, 1, 1⟩ rfl (by norm_num) (by norm_num) (by norm_num)]
      have hang := angleRel_full_rect (rectMask 0 1 0 1) 0 0 1 1 (by norm_num)
        (fun r hr col hcol => by
          rw [rectMask]
          exact decide_eq_true (by omega))
      norm_num [Except.ok.injEq, Option.some.injEq, Info.mk.injEq, hang])

/-- C7 counterexample: the palindromic (left/right-symmetric) height profile
[2, 1, 0, 1, 2] of width 5 yields tilt 2/7, not 0: for a width not divisible
by 4 the right region `[3w//4, w)` is wider than the left region `[0, w//4)`
(here [1, 2] against [2]), so mirror symmetry of the profile does not make
the two region means equal. -/
theorem claim7_counterexample :
    ([2, 1, 0, 1, 2] : List ℚ).reverse = [2, 1, 0, 1, 2] ∧
    angleRel 5 [2, 1, 0, 1, 2] = 2 / 7 ∧ (2 / 7 : ℚ) ≠ 0 := by
  have hL : nonzeros (leftRegion 5 [2, 1, 0, 1, 2]) = [2] := by
    rw [leftRegion, if_pos (by norm_num)]
    norm_num [nonzeros]
  have hR : nonzeros (rightRegion 5 [2, 1, 0, 1, 2]) = [1, 2] := by
    rw [rightRegion, if_pos (by norm_num)]
    norm_num [nonzeros]
  refine ⟨rfl, ?_, by norm_num⟩
  rw [angleRel_formula (by rw [hL]; simp) (by rw [hR]; simp), hL, hR]
  norm_num [listMean]

/-- C7 (amended): the tilt is computed from the column height profile exactly
as the claim describes — for `w ≥ 4` the left region is the first `w // 4`
columns and the right region is `[3w//4, w)`, for `w < 4` both regions are
the full profile and the tilt is 0; the side means range over nonzero heights
only; the tilt is 0 when either region has no nonzero column and otherwise
equals `(h_left - h_right) / ((h_left + h_right)/2)`; a left region uniformly
twice the right region's height gives exactly 2/3; and a left/right-symmetric
(palindromic) profile gives exactly 0 when the width is a multiple of 4 — for
other widths the two regions have different lengths and symmetry need not
cancel (see the counterexample). -/
theorem claim7_tilt_characterization (w : ℕ) (hs : List ℚ) :
    (4 ≤ w → leftRegion w hs = hs.take (w / 4) ∧
      rightRegion w hs = hs.drop (3 * w / 4)) ∧
    (w < 4 → leftRegion w hs = hs ∧ rightRegion w hs = hs ∧ angleRel w hs = 0) ∧
    (nonzeros (leftRegion w hs) = [] ∨ nonzeros (rightRegion w hs) = [] →
      angleRel w hs = 0) ∧
    (nonzeros (leftRegion w hs) ≠ [] → nonzeros (rightRegion w hs) ≠ [] →
      angleRel w hs =
        (listMean (nonzeros (leftRegion w hs)) -
          listMean (nonzeros (rightRegion w hs))) /
          ((listMean (nonzeros (leftRegion w hs)) +
            listMean (nonzeros (rightRegion w hs))) / 2)) ∧
    (∀ t : ℚ, 0 < t → hs.length = w → 4 ≤ w →
      (∀ v ∈ leftRegion w hs, v = 2 * t) → (∀ v ∈ rightRegion w hs, v = t) →
      angleRel w hs = 2 / 3) ∧
    (hs.length = w → 4 ∣ w → hs.reverse = hs → angleRel w hs = 0) := by
  refine ⟨fun h4 => ⟨if_pos h4, if_pos h4⟩,
    fun h4 => ⟨if_neg (by omega), if_neg (by omega), angleRel_small hs h4⟩,
    angleRel_of_empty, angleRel_formula, ?_, ?_⟩
  · intro t ht hlen h4 hleft hright
    have hLne : leftRegion w hs ≠ [] := by
      rw [leftRegion, if_pos h4]
      intro hnil
      have hlt := congrArg List.length hnil
      rw [List.length_take, hlen] at hlt
      simp only [List.length_nil] at hlt
      omega
    have hRne : rightRegion w hs ≠ [] := by
      rw [rightRegion, if_pos h4]
      intro hnil
      have hlt := congrArg List.length hnil
      rw [List.length_drop, hlen] at hlt
      simp only [List.length_nil] at hlt
      omega
    have hLnz : nonzeros (leftRegion w hs) = leftRegion w hs := by
      rw [nonzeros]
      apply List.filter_eq_self.mpr
      intro v hv
      rw [hleft v hv]
      exact decide_eq_true (by positivity)
    have hRnz : nonzeros (rightRegion w hs) = rightRegion w hs := by
      rw [nonzeros]
      apply List.filter_eq_self.mpr
      intro v hv
      rw [hright v hv]
      exact decide_eq_true ht
    have hLm : listMean (nonzeros (leftRegion w hs)) = 2 * t := by
      rw [hLnz]
      exact listMean_const hLne hleft
    have hRm : listMean (nonzeros (rightRegion w hs)) = t := by
      rw [hRnz]
      exact listMean_const hRne hright
    rw [angleRel_formula (by rw [hLnz]; exact hLne) (by rw [hRnz]; exact hRne),
      hLm, hRm]
    have hden : ((2 * t + t) / 2 : ℚ) ≠ 0 := by positivity
    rw [div_eq_iff hden]
    ring
  · intro hlen hdvd hrev
    by_cases h4 : 4 ≤ w
    · have hrr := rightRegion_of_palindrome hlen hdvd hrev h4
      have hnzrev : nonzeros ((leftRegion w hs).reverse) =
          (nonzeros (leftRegion w hs)).reverse := by
        rw [nonzeros, nonzeros, List.filter_reverse]
      apply angleRel_eq_zero_of_mean_eq
      rw [hrr, hnzrev, listMean_reverse]
    · exact angleRel_small hs (by omega)

/-- Witness for C7: the width-8 profile [2, 2, 1, 1, 1, 1, 1, 1], whose left
quarter [2, 2] is uniformly twice its right quarter [1, 1], yields tilt
exactly 2/3. -/
theorem claim7_witness :
    angleRel 8 [2, 2, 1, 1, 1, 1, 1, 1] = 2 / 3 :=
  (claim7_tilt_characterization 8 [2, 2, 1, 1, 1, 1, 1, 1]).2.2.2.2.1 1
    (by norm_num) rfl (by norm_num)
    (by
      intro v hv
      have hL : leftRegion 8 [2, 2, 1, 1, 1, 1, 1, 1] = [(2 : ℚ), 2] := rfl
      rw [hL] at hv
      rcases List.mem_cons.mp hv with h | h
      · rw [h]; norm_num
      · rcases List.mem_cons.mp h with h | h
        · rw [h]; norm_num
        · exact absurd h (by simp))
    (by
      intro v hv
      have hR : rightRegion 8 [2, 2, 1, 1, 1, 1, 1, 1] = [(1 : ℚ), 1] := rfl
      rw [hR] at hv
      rcases List.mem_cons.mp hv with h | h
      · rw [h]
      · rcases List.mem_cons.mp h with h | h
        · rw [h]
        · exact absurd h (by simp))
